import Mathlib

/-!
# Verification of the `accounting` ledger core

A shallow embedding, in Lean 4, of the parts of the `accounting` repository
(`accounting/core/value.py`, `accounting/core/filter.py`, `accounting/core/core.py`,
`accounting/core/dateutils.py`, `accounting/report.py`) that its specification
talks about, together with theorems settling the specification's claims.

Conventions used throughout:

* Python `Decimal` values are embedded as a coefficient/exponent pair
  (`PyDecimal`), mirroring the decimal module's representation; where only
  ordering, addition and zero-tests of already-quantized amounts matter
  (report sums), amounts are embedded as `Int` (an order- and sum-isomorphic
  view of two-digit decimals).
* Python `datetime.date` is embedded as `PDate` (year/month/day) with the
  Gregorian month lengths; `date + timedelta(days=n)` is day-by-day succession.
* Fallible Python code is embedded with `Option`/`Except`; an unbounded
  Python loop or recursion is embedded with an explicit fuel argument, and
  the theorems exhibit sufficient fuel.
* Object identity of Python entities is embedded as a numeric id field.
-/

namespace Accounting

/-! ## Filter engine (`accounting/core/filter.py`)

`Filter` instances either are leaves (a concrete predicate implementing
`_accepted`) or carry an operator together with a tuple of combined
sub-filters (`CombinedFilter`, whose own `_accepted` returns `True`).
`accepted`/`rejected` iterate over the combined sub-filters with
short-circuit evaluation exactly as the two loops in `Filter.accepted` and
`Filter.rejected` do. -/

inductive FOp where
  | AND
  | OR
deriving DecidableEq, Repr

inductive Filter (α : Type) where
  /-- A leaf filter: a concrete subclass whose `_accepted` is the given predicate. -/
  | leaf (accepts : α → Bool) : Filter α
  /-- A filter holding an operator and combined sub-filters (`CombinedFilter`). -/
  | comb (op : FOp) (combined : List (Filter α)) : Filter α

namespace Filter

/-- `Filter.accepted`: the short-circuit loop over `self._combined`.
`acc` is the value of the local variable `accepted` when entering the
loop iteration; the loop first tests it and only then evaluates the next
sub-filter. -/
def accepted {α : Type} : Filter α → α → Bool
  | .leaf p, x => p x
  | .comb _ [], _ => true
  | .comb op (f :: rest), x => acceptedLoop op x (accepted f x) rest
where acceptedLoop {α : Type} (op : FOp) (x : α) : Bool → List (Filter α) → Bool
  | acc, [] => acc
  | acc, f :: rest =>
      if op = .AND ∧ acc = false then false
      else if op = .OR ∧ acc = true then true
      else acceptedLoop op x (accepted f x) rest

/-- `Filter.rejected`: the dual short-circuit loop; for a leaf it is
`not self._accepted(obj)`, for a combined filter with no sub-filters it falls
back to `not _accepted` as well (which is `False` for `CombinedFilter`). -/
def rejected {α : Type} : Filter α → α → Bool
  | .leaf p, x => !(p x)
  | .comb _ [], _ => false
  | .comb op (f :: rest), x => rejectedLoop op x (rejected f x) rest
where rejectedLoop {α : Type} (op : FOp) (x : α) : Bool → List (Filter α) → Bool
  | rej, [] => rej
  | rej, f :: rest =>
      if op = .AND ∧ rej = true then true
      else if op = .OR ∧ rej = false then false
      else rejectedLoop op x (rejected f x) rest

/-- `Filter.__and__`: `CombinedFilter(Filter.Operator.AND, self, other)`. -/
def andF {α : Type} (f g : Filter α) : Filter α := .comb .AND [f, g]

/-- `Filter.__or__`: `CombinedFilter(Filter.Operator.OR, self, other)`. -/
def orF {α : Type} (f g : Filter α) : Filter α := .comb .OR [f, g]

end Filter

/-! Helper lemmas about the filter loops, shared by several claims. -/

mutual

theorem Filter.rejected_eq_not_accepted {α : Type} (f : Filter α) (x : α) :
    Filter.rejected f x = !(Filter.accepted f x) := by
  match f with
  | .leaf p => simp [Filter.rejected, Filter.accepted]
  | .comb op [] => simp [Filter.rejected, Filter.accepted]
  | .comb op (g :: rest) =>
      rw [Filter.rejected, Filter.accepted, Filter.rejected_eq_not_accepted g x,
        Filter.rejectedLoop_eq_not_acceptedLoop op x (Filter.accepted g x) rest]

theorem Filter.rejectedLoop_eq_not_acceptedLoop {α : Type} (op : FOp) (x : α) (a : Bool)
    (fs : List (Filter α)) :
    Filter.rejected.rejectedLoop op x (!a) fs = !(Filter.accepted.acceptedLoop op x a fs) := by
  match fs with
  | [] => simp [Filter.rejected.rejectedLoop, Filter.accepted.acceptedLoop]
  | f :: rest =>
      rw [Filter.rejected.rejectedLoop, Filter.accepted.acceptedLoop]
      cases op <;> cases a <;>
        simp only [Bool.not_true, Bool.not_false, and_true, and_false, and_self,
          if_true, if_false, reduceIte, Bool.not_not] <;>
        first
          | rfl
          | (rw [Filter.rejected_eq_not_accepted f x,
              Filter.rejectedLoop_eq_not_acceptedLoop _ x (Filter.accepted f x) rest]; simp)

end

/-- The accepted-side short-circuit loop over `[g]` computes conjunction
resp. disjunction with the incoming accumulator. -/
theorem Filter.accepted_andF {α : Type} (f g : Filter α) (x : α) :
    Filter.accepted (Filter.andF f g) x = (Filter.accepted f x && Filter.accepted g x) := by
  rw [Filter.andF, Filter.accepted]
  cases h : Filter.accepted f x <;>
    simp [Filter.accepted.acceptedLoop]

theorem Filter.accepted_orF {α : Type} (f g : Filter α) (x : α) :
    Filter.accepted (Filter.orF f g) x = (Filter.accepted f x || Filter.accepted g x) := by
  rw [Filter.orF, Filter.accepted]
  cases h : Filter.accepted f x <;>
    simp [Filter.accepted.acceptedLoop]

/-- C5: For all filters `f1`, `f2` and every entity `x` on which both are defined,
`(f1 & f2).accepted(x)` is the conjunction and `(f1 | f2).accepted(x)` the
disjunction of the individual results, and for every filter `f` (leaf or
combined) `f.rejected(x)` equals `not f.accepted(x)`: `rejected` is the logical
dual of `accepted` under the combinator algebra. -/
theorem claim_C5_filter_algebra {α : Type} (f1 f2 : Filter α) (x : α) :
    Filter.accepted (Filter.andF f1 f2) x = (Filter.accepted f1 x && Filter.accepted f2 x)
    ∧ Filter.accepted (Filter.orF f1 f2) x = (Filter.accepted f1 x || Filter.accepted f2 x)
    ∧ ∀ f : Filter α, Filter.rejected f x = !(Filter.accepted f x) :=
  ⟨Filter.accepted_andF f1 f2 x, Filter.accepted_orF f1 f2 x,
    fun f => Filter.rejected_eq_not_accepted f x⟩

/-! ## `FilterRegexpDescr` (`accounting/core/core.py`, claim C2)

`_accepted` for an `Item` builds a list of texts and accepts the item when
the compiled regular expression's `search` finds a match in one of them.
The source reads

    txts += obj.descr
    txts += [obj.transaction.descr]
    txts += [item.descr for item in obj.transaction if item is not obj]

`txts += obj.descr` extends the list with the CHARACTERS of the item's own
description (each becoming a one-character string), while the transaction's
description and the sibling items' descriptions are appended as whole
strings.  The regular expression object is embedded abstractly as its
`search` method viewed as a text predicate. -/

/-- Does `pat` occur starting at the head of `s`? -/
def charsStartWith : List Char → List Char → Bool
  | [], _ => true
  | _ :: _, [] => false
  | p :: ps, c :: cs => p = c && charsStartWith ps cs

/-- Leftmost-occurrence search for the literal pattern `pat` in `s`:
the semantics of `re.search` for a regular expression consisting of plain
literal characters. -/
def charsSearchLit (pat : List Char) : List Char → Bool
  | [] => pat.isEmpty
  | c :: rest => charsStartWith pat (c :: rest) || charsSearchLit pat rest

/-- `re.search` of a literal pattern against a string. -/
def regexpSearchLit (pat : List Char) (t : String) : Bool :=
  charsSearchLit pat t.toList

/-- `FilterRegexpDescr._accepted` on an `Item`, given the item's own
description, its transaction's description and the sibling items'
descriptions.  `search` is the regexp object's `search` method. -/
def filterRegexpDescrAcceptedItem (search : String → Bool)
    (descr trnDescr : String) (siblingDescrs : List String) : Bool :=
  let txts := descr.toList.map (fun c => String.mk [c]) ++ ([trnDescr] ++ siblingDescrs)
  txts.any search

/-- `FilterRegexpDescr._accepted` on a `Transaction` (for contrast, the
descriptions here are appended as whole strings). -/
def filterRegexpDescrAcceptedTrn (search : String → Bool)
    (trnDescr : String) (itemDescrs : List String) : Bool :=
  let txts := [trnDescr] ++ itemDescrs
  txts.any search

/-- C2 (code bug): the regular expression `ab` matches inside the item's own
full description `"ab"`, yet the filter rejects the item (its transaction
description `"x"` and its lack of siblings offering no other match), because
`txts += obj.descr` splits the item's own description into single
characters.  A transaction with the same description is accepted, showing
the item branch is the odd one out. -/
theorem claim_C2_regexp_descr_item_chars :
    regexpSearchLit "ab".toList "ab" = true
    ∧ filterRegexpDescrAcceptedItem (regexpSearchLit "ab".toList) "ab" "x" [] = false
    ∧ filterRegexpDescrAcceptedTrn (regexpSearchLit "ab".toList) "x" ["ab"] = true := by
  decide

/-! ## `ReportDatasetGroup.sorted` (`accounting/report.py`, claim C3)

Amounts are embedded as `Int`: every amount the report pipeline stores is a
sum of two-digit-quantized `Decimal`s, and on those the `Decimal` order,
addition, and zero test agree with the integer ones (scale by 100). -/

/-- A `ReportDatasetValue`: label, decimal amount and the contributing items
(by id; the synthetic remainder value is built with an empty item list). -/
structure RDValue where
  vlabel : String
  value : Int
  items : List Nat
deriving DecidableEq, Repr

/-- One insertion step of a stable descending sort by `value`. -/
def insertValueDesc (v : RDValue) : List RDValue → List RDValue
  | [] => [v]
  | w :: ws => if w.value > v.value then w :: insertValueDesc v ws else v :: w :: ws

/-- `vals.sort(key=lambda v: v.value, reverse=True)`: Python's sort is
stable; this insertion sort places later elements after earlier ones with
an equal key. -/
def sortValuesDesc (l : List RDValue) : List RDValue := l.foldr insertValueDesc []

/-- `ReportDatasetGroup.sorted(maxNof)`: drop falsy (zero) values, sort
descending by value, and when `maxNof` is nonzero and exceeded keep
`vals[:maxNof - 1]`, sum `vals[maxNof + 1:]` into a synthetic `"..."` value
(appended only when that sum is nonzero). -/
def groupSorted (values : List RDValue) (maxNof : Nat) : List RDValue :=
  let vals := sortValuesDesc (values.filter (fun v => v.value ≠ 0))
  if maxNof ≠ 0 ∧ vals.length > maxNof then
    let kept := vals.take (maxNof - 1)
    let other := vals.drop (maxNof + 1)
    let sumOther := (other.map RDValue.value).sum
    if sumOther ≠ 0 then kept ++ [⟨"...", sumOther, []⟩] else kept
  else vals

/-- A five-value group used to exhibit the capping bug. -/
def c3Group : List RDValue :=
  [⟨"a", 5, []⟩, ⟨"b", 4, []⟩, ⟨"c", 3, []⟩, ⟨"d", 2, []⟩, ⟨"e", 1, []⟩]

/-- C3 (code bug): capping the five-value group `[5,4,3,2,1]` at `maxNof = 3`
returns `[5, 4, "..."=1]`: the slice pair `vals[:maxNof-1]` / `vals[maxNof+1:]`
drops the values `3` and `2` from both the kept values and the synthetic
remainder, so the returned amounts sum to `10` while the group's nonzero
amounts sum to `15`. -/
theorem claim_C3_sorted_cap_drops_values :
    groupSorted c3Group 3 = [⟨"a", 5, []⟩, ⟨"b", 4, []⟩, ⟨"...", 1, []⟩]
    ∧ ((groupSorted c3Group 3).map RDValue.value).sum = 10
    ∧ (c3Group.map RDValue.value).sum = 15
    ∧ (3 : Int) ∈ c3Group.map RDValue.value
    ∧ (3 : Int) ∉ (groupSorted c3Group 3).map RDValue.value := by
  decide

/-! ## `Report` dataset cache (`accounting/report.py`, claim C4)

`Report._datasets` is a string-keyed dict of memoized datasets; datasets
themselves are abstracted by an id.  `datasetMonthlyTypes` guards on the
key `"monthlyTypes"` but on a cache hit returns `self._datasets["monthly"]`. -/

/-- Dict lookup, `None` standing for a raised `KeyError`. -/
def dictLookup (cache : List (String × Nat)) (k : String) : Option Nat :=
  (cache.find? (fun kv => kv.1 == k)).map (fun kv => kv.2)

/-- `Report.datasetMonthlyTypes`: on a hit of `"monthlyTypes"` it returns the
entry under `"monthly"`; otherwise it stores the freshly built dataset under
`"monthlyTypes"` and returns that entry.  Returns the produced dataset (or
`none` for `KeyError`) together with the new cache. -/
def datasetMonthlyTypesCache (cache : List (String × Nat)) (build : Nat) :
    Option Nat × List (String × Nat) :=
  if (dictLookup cache "monthlyTypes").isSome then
    (dictLookup cache "monthly", cache)
  else
    let cache2 := cache ++ [("monthlyTypes", build)]
    (dictLookup cache2 "monthlyTypes", cache2)

/-- `Report.setRange` empties the dataset cache (`self._datasets = {}`). -/
def setRangeCache (_cache : List (String × Nat)) : List (String × Nat) := []

/-- C4 (code bug): on a fresh `Report` the first `datasetMonthlyTypes()` call
builds and returns the dataset, but a second call with no intervening
`setRange` hits the `"monthlyTypes"` guard and then evaluates
`self._datasets["monthly"]`, which is absent: a `KeyError` (`none`), not the
memoized dataset.  (After `setRange` the builder does recompute.) -/
theorem claim_C4_monthly_types_cache_bug :
    (datasetMonthlyTypesCache [] 7).1 = some 7
    ∧ (datasetMonthlyTypesCache (datasetMonthlyTypesCache [] 7).2 7).1 = none
    ∧ (datasetMonthlyTypesCache (setRangeCache (datasetMonthlyTypesCache [] 7).2) 8).1 = some 8 := by
  decide

/-! ## `Report.__isub__` (`accounting/report.py`, claim C10)

The removal branch executes `self._account.remove(other)`, but `Report`
defines only `_accounts`; attribute lookup raises `AttributeError` before any
mutation, so the selected-accounts list is untouched in every case.
Selected accounts are embedded by id. -/

/-- `Report.__isub__` restricted to `Account` arguments. -/
def reportISubAccount (accounts : List Nat) (a : Nat) : Except String (List Nat) :=
  if a ∈ accounts then
    Except.error "AttributeError: Report object has no attribute _account"
  else
    Except.ok accounts

/-- C10: removing a currently selected account always raises
`AttributeError` (leaving the selected accounts unchanged, since the
exception fires before any mutation), and removing an unselected account is
a no-op returning the report unchanged. -/
theorem claim_C10_report_isub_attribute_error (accounts : List Nat) (a : Nat) :
    (a ∈ accounts →
      reportISubAccount accounts a
        = Except.error "AttributeError: Report object has no attribute _account")
    ∧ (a ∉ accounts → reportISubAccount accounts a = Except.ok accounts) := by
  constructor
  · intro h
    simp [reportISubAccount, h]
  · intro h
    simp [reportISubAccount, h]

/-- Witness for C10 at a concrete report. -/
theorem claim_C10_report_isub_attribute_error_witness :
    reportISubAccount [7] 7
      = Except.error "AttributeError: Report object has no attribute _account"
    ∧ reportISubAccount [7] 3 = Except.ok [7] :=
  ⟨(claim_C10_report_isub_attribute_error [7] 7).1 (by decide),
    (claim_C10_report_isub_attribute_error [7] 3).2 (by decide)⟩

/-! ## `Account.setName` (`accounting/core/core.py`, claim C6)

Account names are embedded as `List Char` (Python strings).  The account
tree below an owner (a parent `Account` or the `Database`) is a list of
nodes; `__contains__` splits the key at the separator `/`, scans the
children for one whose name equals the first segment, and on a match with
remaining segments descends into that child with the re-joined tail. -/

inductive AccNode where
  | node (name : List Char) (children : List AccNode)

def AccNode.nameOf : AccNode → List Char
  | .node n _ => n

/-- Python `str.split(sep)` (always at least one, possibly empty, part). -/
def pySplit (sep : Char) : List Char → List (List Char)
  | [] => [[]]
  | c :: cs =>
      match pySplit sep cs with
      | [] => [[]]
      | g :: gs => if c = sep then [] :: g :: gs else (c :: g) :: gs

/-- Python `sep.flatten(parts)`. -/
def pyJoin (sep : Char) : List (List Char) → List Char
  | [] => []
  | [g] => g
  | g :: g2 :: gs => g ++ sep :: pyJoin sep (g2 :: gs)

mutual

/-- `Account.__contains__` on already split parts: delegate to the scan of
the child accounts. -/
def accContainsParts : AccNode → List (List Char) → Bool
  | .node _ cs, parts => listContainsParts cs parts

/-- The scan of `Account.__contains__`/`Database.__contains__` over already
split parts: the first child whose name equals the leading segment decides;
with further segments the lookup descends into that child on the `/`-joined
and re-split remainder. -/
def listContainsParts : List AccNode → List (List Char) → Bool
  | [], _ => false
  | a :: rest, parts =>
      if parts.headD [] = a.nameOf then
        match parts with
        | _ :: p1 :: ptail => accContainsParts a (pySplit '/' (pyJoin '/' (p1 :: ptail)))
        | _ => true
      else listContainsParts rest parts

end

/-- `key in owner`, `owner` having children `cs`. -/
def containsPath (cs : List AccNode) (key : List Char) : Bool :=
  listContainsParts cs (pySplit '/' key)

/-- `Account.setName(newName)`: refuse names containing the separator;
when the account is attached (`siblings = some cs`, the children of its
parent account — or of the `Database` for a root account), refuse names
contained in that owner; otherwise rename.  Returns the boolean result
together with the account's name afterwards. -/
def setNameAcc (siblings : Option (List AccNode)) (name newName : List Char) :
    Bool × List Char :=
  if '/' ∈ newName then (false, name)
  else
    match siblings with
    | some cs => if containsPath cs newName then (false, name) else (true, newName)
    | none => (true, newName)

/-- Splitting a list free of the separator gives a single part. -/
theorem pySplit_no_sep (sep : Char) (s : List Char) (h : sep ∉ s) :
    pySplit sep s = [s] := by
  induction s with
  | nil => rfl
  | cons c cs ih =>
      have hc : c ≠ sep := fun hcs => h (hcs ▸ List.mem_cons_self c cs)
      have hcs : sep ∉ cs := fun hm => h (List.mem_cons_of_mem c hm)
      simp [pySplit, ih hcs, hc]

/-- On separator-free keys, containment in an owner is exactly a direct
child bearing that name. -/
theorem containsPath_no_sep (cs : List AccNode) (key : List Char) (h : '/' ∉ key) :
    containsPath cs key = true ↔ ∃ a ∈ cs, a.nameOf = key := by
  rw [containsPath, pySplit_no_sep '/' key h]
  clear h
  induction cs with
  | nil => simp [listContainsParts]
  | cons a rest ih =>
      obtain ⟨n, cs'⟩ := a
      by_cases hn : key = n
      · subst hn
        constructor
        · intro _
          exact ⟨AccNode.node key cs', List.mem_cons_self _ _, rfl⟩
        · intro _
          simp [listContainsParts, AccNode.nameOf]
      · have hstep : listContainsParts (AccNode.node n cs' :: rest) [key]
            = listContainsParts rest [key] := by
          simp [listContainsParts, AccNode.nameOf, hn]
        rw [hstep, ih]
        constructor
        · rintro ⟨a, ha, hak⟩
          exact ⟨a, List.mem_cons_of_mem _ ha, hak⟩
        · rintro ⟨a, ha, hak⟩
          rcases List.mem_cons.mp ha with rfl | ha'
          · rw [AccNode.nameOf] at hak
            exact absurd hak.symm hn
          · exact ⟨a, ha', hak⟩

/-- C6 amended: `setName` fails (returns `False`, leaving the name
unchanged) exactly when the new name contains the separator or equals the
name of ANY child of the owner — including the account itself, so renaming
an attached account to its current name also fails; on success the name
becomes the new name. -/
theorem claim_C6_set_name_amended (cs : List AccNode) (name newName : List Char) :
    ((setNameAcc (some cs) name newName).1 = false
        ↔ ('/' ∈ newName ∨ ∃ a ∈ cs, a.nameOf = newName))
    ∧ ((setNameAcc (some cs) name newName).1 = false
        → (setNameAcc (some cs) name newName).2 = name)
    ∧ ((setNameAcc (some cs) name newName).1 = true
        → (setNameAcc (some cs) name newName).2 = newName) := by
  by_cases hsep : '/' ∈ newName
  · simp [setNameAcc, hsep]
  · by_cases hc : containsPath cs newName = true
    · have := (containsPath_no_sep cs newName hsep).mp hc
      simp [setNameAcc, hsep, hc, this]
    · have : ¬ ∃ a ∈ cs, a.nameOf = newName := by
        intro hex
        exact hc ((containsPath_no_sep cs newName hsep).mpr hex)
      simp [setNameAcc, hsep, hc, this]

/-- Witness for the amended C6 at a concrete owner. -/
theorem claim_C6_set_name_amended_witness :
    (setNameAcc (some [AccNode.node "Foo".toList []]) "Foo".toList "Bar".toList).2
      = "Bar".toList :=
  (claim_C6_set_name_amended [AccNode.node "Foo".toList []] "Foo".toList "Bar".toList).2.2
    (by decide)

/-- C6 counterexample: an account named `"Foo"` whose parent has no other
child is renamed to `"Foo"` — the new name contains no separator and
collides with no different sibling, yet `setName` returns `False` (the
membership test `newName in parent` also finds the account itself). -/
theorem claim_C6_set_name_counterexample :
    '/' ∉ "Foo".toList
    ∧ (∀ a ∈ [AccNode.node "Foo".toList []], a.nameOf = "Foo".toList)
    ∧ setNameAcc (some [AccNode.node "Foo".toList []]) "Foo".toList "Foo".toList
        = (false, "Foo".toList) := by
  refine ⟨by decide, ?_, by decide⟩
  intro a ha
  rw [List.mem_singleton] at ha
  rw [ha, AccNode.nameOf]

/-! ## `Database` transaction ordering (`accounting/core/core.py`, claim C7)

Transactions are embedded as an id (object identity) plus a date; dates as
`Int` (the `datetime.date` total order).  `Database.sortTransactions` is
Python's stable `list.sort(key=lambda t: t.date)`, embedded as a stable
insertion sort.  `__iadd__` appends then resorts (outside the parsing
phase), `__isub__` removes without resorting, `Transaction.setDate` mutates
the date and resorts (when the transaction is attached to a database, as in
the claim's scenario). -/

structure Trn7 where
  tid : Nat
  date : Int
deriving DecidableEq, Repr

/-- Stable insertion step for ascending sort by date. -/
def insertByDate (t : Trn7) : List Trn7 → List Trn7
  | [] => [t]
  | u :: us => if t.date ≤ u.date then t :: u :: us else u :: insertByDate t us

/-- `Database.sortTransactions` (stable sort ascending by date). -/
def sortTransactions (l : List Trn7) : List Trn7 := l.foldr insertByDate []

/-- `Database.__iadd__` for a `Transaction` outside the parsing phase:
append when not already present, then resort. -/
def dbIAddTrn (l : List Trn7) (t : Trn7) : List Trn7 :=
  if l.any (fun u => u.tid == t.tid) then l else sortTransactions (l ++ [t])

/-- `Database.__isub__` for a `Transaction`: remove the first occurrence
when present (no resort). -/
def dbISubTrn (l : List Trn7) (t : Trn7) : List Trn7 :=
  if l.any (fun u => u.tid == t.tid) then l.eraseP (fun u => u.tid == t.tid) else l

/-- `Transaction.setDate` on a transaction attached to the database:
update the date, then the database resorts. -/
def setDateTrn (l : List Trn7) (i : Nat) (d : Int) : List Trn7 :=
  sortTransactions (l.map (fun t => if t.tid == i then { t with date := d } else t))

/-- Ascending-by-date ordering of the database's transaction list. -/
def SortedByDate (l : List Trn7) : Prop :=
  List.Pairwise (fun a b => a.date ≤ b.date) l

theorem mem_insertByDate (t x : Trn7) (l : List Trn7) :
    x ∈ insertByDate t l ↔ x = t ∨ x ∈ l := by
  induction l with
  | nil => simp [insertByDate]
  | cons u us ih =>
      by_cases h : t.date ≤ u.date
      · simp [insertByDate, h]
      · simp [insertByDate, h, ih]
        tauto

theorem sorted_insertByDate (t : Trn7) (l : List Trn7) (h : SortedByDate l) :
    SortedByDate (insertByDate t l) := by
  induction l with
  | nil => simp [insertByDate, SortedByDate]
  | cons u us ih =>
      rw [SortedByDate, List.pairwise_cons] at h
      by_cases hle : t.date ≤ u.date
      · rw [SortedByDate]
        simp only [insertByDate, hle, if_pos]
        refine List.Pairwise.cons ?_ (List.Pairwise.cons h.1 h.2)
        intro b hb
        rcases List.mem_cons.mp hb with rfl | hbus
        · exact hle
        · exact le_trans hle (h.1 b hbus)
      · rw [SortedByDate]
        simp only [insertByDate, hle, if_neg, not_false_iff]
        refine List.Pairwise.cons ?_ (ih h.2)
        intro b hb
        rcases (mem_insertByDate t b us).mp hb with rfl | hbus
        · omega
        · exact h.1 b hbus

theorem sorted_sortTransactions (l : List Trn7) : SortedByDate (sortTransactions l) := by
  induction l with
  | nil => exact List.Pairwise.nil
  | cons t ts ih => exact sorted_insertByDate t (sortTransactions ts) ih

/-- C7: outside the bulk-load phase every mutation leaves the database's
transactions sorted ascending by date — attaching resorts, detaching
preserves order, `setDate` resorts — and the spec's scenario holds: three
transactions dated `T`, `T+1`, `T-5` inserted in that order line up as
`[T-5, T, T+1]`, and re-dating the `T+1` transaction to `T-1` resorts the
sequence to `[T-5, T-1, T]`. -/
theorem claim_C7_transactions_sorted (l : List Trn7) (t : Trn7) (i : Nat) (d : Int)
    (T : Int) (h : SortedByDate l) :
    SortedByDate (dbIAddTrn l t)
    ∧ SortedByDate (dbISubTrn l t)
    ∧ SortedByDate (setDateTrn l i d)
    ∧ dbIAddTrn (dbIAddTrn (dbIAddTrn [] ⟨0, T⟩) ⟨1, T + 1⟩) ⟨2, T - 5⟩
        = [⟨2, T - 5⟩, ⟨0, T⟩, ⟨1, T + 1⟩]
    ∧ setDateTrn [⟨2, T - 5⟩, ⟨0, T⟩, ⟨1, T + 1⟩] 1 (T - 1)
        = [⟨2, T - 5⟩, ⟨1, T - 1⟩, ⟨0, T⟩] := by
  refine ⟨?_, ?_, ?_, ?_, ?_⟩
  · rw [dbIAddTrn]
    split
    · exact h
    · exact sorted_sortTransactions (l ++ [t])
  · rw [dbISubTrn]
    split
    · exact List.Pairwise.sublist (List.eraseP_sublist l) h
    · exact h
  · exact sorted_sortTransactions _
  · simp [dbIAddTrn, sortTransactions, insertByDate,
      show (T : Int) ≤ T + 1 from by omega,
      show ¬((T : Int) + 1 ≤ T - 5) from by omega,
      show ¬((T : Int) ≤ T - 5) from by omega]
  · simp [setDateTrn, sortTransactions, insertByDate,
      show ¬((T : Int) ≤ T - 1) from by omega,
      show ¬((T : Int) ≤ T - 5) from by omega,
      show ¬((T : Int) - 1 ≤ T - 5) from by omega,
      show (T : Int) - 5 ≤ T - 1 from by omega]

/-- Witness for C7 at the empty database and `T = 0`. -/
theorem claim_C7_transactions_sorted_witness :
    SortedByDate (dbIAddTrn [] ⟨0, 0⟩)
    ∧ dbIAddTrn (dbIAddTrn (dbIAddTrn [] ⟨0, (0 : Int)⟩) ⟨1, 0 + 1⟩) ⟨2, 0 - 5⟩
        = [⟨2, 0 - 5⟩, ⟨0, 0⟩, ⟨1, 0 + 1⟩] :=
  ⟨(claim_C7_transactions_sorted [] ⟨0, 0⟩ 0 0 0 List.Pairwise.nil).1,
    (claim_C7_transactions_sorted [] ⟨0, 0⟩ 0 0 0 List.Pairwise.nil).2.2.2.1⟩

/-! ## Item↔Transaction / Item↔Account links (`accounting/core/core.py`, claim C8)

Items, transactions and accounts are embedded by id.  An `Item` stores at
most one transaction reference and at most one account reference (the
`_transaction`/`_account` attributes, embedded as `Option`); a `Transaction`
stores its ordered item list; an `Account` stores no item collection (its
items are reachable through transaction iteration only).  The mutually
recursive `__iadd__`/`__isub__` pairs are embedded with an explicit fuel
argument (`none` = fuel exhausted); the theorems exhibit sufficient fuel. -/

structure St8 where
  itemTrn : Nat → Option Nat
  trnItems : Nat → List Nat
  itemAcc : Nat → Option Nat

mutual

/-- `Item.__iadd__` with a `Transaction`: when the target differs, first
`self._transaction -= self` (if any), then set the reference and
`self._transaction += self`. -/
def itemIAddTrn : Nat → St8 → Nat → Nat → Option St8
  | 0, _, _, _ => none
  | fuel + 1, s, i, t =>
      if s.itemTrn i = some t then some s
      else
        match s.itemTrn i with
        | some t0 =>
            match trnISubItem fuel s t0 i with
            | none => none
            | some s1 =>
                trnIAddItem fuel
                  { s1 with itemTrn := fun j => if j = i then some t else s1.itemTrn j } t i
        | none =>
            trnIAddItem fuel
              { s with itemTrn := fun j => if j = i then some t else s.itemTrn j } t i

/-- `Transaction.__iadd__` with an `Item`: append when absent, then
`other += self`. -/
def trnIAddItem : Nat → St8 → Nat → Nat → Option St8
  | 0, _, _, _ => none
  | fuel + 1, s, t, i =>
      if i ∈ s.trnItems t then some s
      else
        itemIAddTrn fuel
          { s with trnItems := fun u => if u = t then s.trnItems u ++ [i] else s.trnItems u } i t

/-- `Transaction.__isub__` with an `Item`: remove the first occurrence when
present, then `other -= self`. -/
def trnISubItem : Nat → St8 → Nat → Nat → Option St8
  | 0, _, _, _ => none
  | fuel + 1, s, t, i =>
      if i ∈ s.trnItems t then
        itemISubTrn fuel
          { s with trnItems := fun u => if u = t then (s.trnItems u).erase i else s.trnItems u } i t
      else some s

/-- `Item.__isub__` with a `Transaction`: clear the reference when it points
at the argument, then `other -= self`. -/
def itemISubTrn : Nat → St8 → Nat → Nat → Option St8
  | 0, _, _, _ => none
  | fuel + 1, s, i, t =>
      if s.itemTrn i = some t then
        trnISubItem fuel
          { s with itemTrn := fun j => if j = i then none else s.itemTrn j } t i
      else some s

end

mutual

/-- `Item.__iadd__` with an `Account`: when the target differs, first
`self._account -= self` (if any), set the reference, then
`self._account += self`. -/
def itemIAddAcc : Nat → St8 → Nat → Nat → Option St8
  | 0, _, _, _ => none
  | fuel + 1, s, i, a =>
      if s.itemAcc i = some a then some s
      else
        match s.itemAcc i with
        | some a0 =>
            match accISubItem fuel s a0 i with
            | none => none
            | some s1 =>
                accIAddItem fuel
                  { s1 with itemAcc := fun j => if j = i then some a else s1.itemAcc j } a i
        | none =>
            accIAddItem fuel
              { s with itemAcc := fun j => if j = i then some a else s.itemAcc j } a i

/-- `Account.__iadd__` with an `Item` delegates: `other += self`. -/
def accIAddItem : Nat → St8 → Nat → Nat → Option St8
  | 0, _, _, _ => none
  | fuel + 1, s, a, i => itemIAddAcc fuel s i a

/-- `Account.__isub__` with an `Item` delegates: `other -= self`. -/
def accISubItem : Nat → St8 → Nat → Nat → Option St8
  | 0, _, _, _ => none
  | fuel + 1, s, a, i => itemISubAcc fuel s i a

/-- `Item.__isub__` with an `Account`: clear the reference when it points at
the argument, then `other -= self`. -/
def itemISubAcc : Nat → St8 → Nat → Nat → Option St8
  | 0, _, _, _ => none
  | fuel + 1, s, i, a =>
      if s.itemAcc i = some a then
        accISubItem fuel
          { s with itemAcc := fun j => if j = i then none else s.itemAcc j } a i
      else some s

end

/-- Mutual consistency of the Item↔Transaction links: an item sits in a
transaction's list exactly when its reference points there, and transaction
item lists are duplicate-free. -/
def Consistent8 (s : St8) : Prop :=
  (∀ i t, i ∈ s.trnItems t ↔ s.itemTrn i = some t) ∧ ∀ t, (s.trnItems t).Nodup

/-- C8: in a consistent state, re-attaching an item that belongs to
transaction `t1` to a different transaction `t2` detaches it from `t1` and
attaches it to `t2`, keeping both sides of the relationship consistent; the
symmetric account operation redirects the (single) account reference.  The
`Option`-typed reference fields realize "at most one Account and at most one
Transaction" by construction. -/
theorem claim_C8_item_reattach (s : St8) (i t1 t2 a1 a2 : Nat)
    (hcons : Consistent8 s) (ht1 : s.itemTrn i = some t1) (ht : t1 ≠ t2)
    (ha1 : s.itemAcc i = some a1) (ha : a1 ≠ a2) :
    ∃ s2, itemIAddTrn 6 s i t2 = some s2
      ∧ s2.itemTrn i = some t2
      ∧ i ∈ s2.trnItems t2
      ∧ i ∉ s2.trnItems t1
      ∧ Consistent8 s2
      ∧ ∃ s3, itemIAddAcc 6 s i a2 = some s3 ∧ s3.itemAcc i = some a2 := by
  have hmem1 : i ∈ s.trnItems t1 := (hcons.1 i t1).mpr ht1
  have hnot2 : i ∉ s.trnItems t2 := by
    intro hm
    have h := (hcons.1 i t2).mp hm
    rw [ht1] at h
    exact ht (Option.some.inj h)
  have hc2 : i ∉ (s.trnItems t1).erase i := by
    intro hm
    exact ((hcons.2 t1).mem_erase_iff.mp hm).1 rfl
  have ht21 : ¬ t2 = t1 := fun h => ht h.symm
  refine ⟨{ itemTrn := fun j => if j = i then some t2 else if j = i then none else s.itemTrn j
            trnItems := fun u =>
              if u = t2 then
                (if u = t1 then (s.trnItems u).erase i else s.trnItems u) ++ [i]
              else if u = t1 then (s.trnItems u).erase i else s.trnItems u
            itemAcc := s.itemAcc },
    ?_, by simp, by simp [ht21], ?_, ?_, ?_⟩
  · simp [itemIAddTrn, trnISubItem, itemISubTrn, trnIAddItem, ht1, ht, hmem1, hc2, ht21, hnot2]
  · simp [ht, hc2]
  · constructor
    · intro j u
      have hu2s : ∀ h : ¬ u = t2, ¬ t2 = u := fun h h' => h h'.symm
      have hu1s : ∀ h : ¬ u = t1, ¬ t1 = u := fun h h' => h h'.symm
      by_cases hj : j = i
      · by_cases hu2 : u = t2
        · simp [hj, hu2, ht21]
        · by_cases hu1 : u = t1
          · simp [hj, hu1, ht, ht21, hc2]
          · simp [hj, hu2, hu1, hcons.1 i u, ht1, hu2s hu2, hu1s hu1]
      · by_cases hu2 : u = t2
        · simp [hj, hu2, ht21, hcons.1 j t2]
        · by_cases hu1 : u = t1
          · simp [hj, hu1, ht, List.mem_erase_of_ne hj, hcons.1 j t1]
          · simp [hj, hu2, hu1, hcons.1 j u]
    · intro u
      by_cases hu2 : u = t2
      · simp [hu2, ht21, List.nodup_append, hnot2, hcons.2 t2]
      · by_cases hu1 : u = t1
        · rw [hu1]
          simp [ht]
          exact (hcons.2 t1).erase i
        · simp only [if_neg hu2, if_neg hu1]
          exact hcons.2 u
  · refine ⟨{ s with itemAcc := fun j =>
        if j = i then some a2 else if j = i then none else s.itemAcc j }, ?_, by simp⟩
    simp [itemIAddAcc, accISubItem, itemISubAcc, accIAddItem, ha1, ha]

/-- A concrete consistent one-item state for the C8 witness: item 0 attached
to transaction 0 and account 0. -/
def c8State : St8 :=
  { itemTrn := fun j => if j = 0 then some 0 else none
    trnItems := fun t => if t = 0 then [0] else []
    itemAcc := fun j => if j = 0 then some 0 else none }

theorem c8State_consistent : Consistent8 c8State := by
  constructor
  · intro j u
    by_cases hj : j = 0 <;> by_cases hu : u = 0 <;>
      simp [c8State, hj, hu]
    exact fun h => hu h.symm
  · intro t
    by_cases ht : t = 0 <;> simp [c8State, ht]

/-- Witness for C8: reattach item 0 from transaction 0 to transaction 1 and
from account 0 to account 1 in the concrete state. -/
theorem claim_C8_item_reattach_witness :
    ∃ s2, itemIAddTrn 6 c8State 0 1 = some s2
      ∧ s2.itemTrn 0 = some 1
      ∧ 0 ∈ s2.trnItems 1
      ∧ 0 ∉ s2.trnItems 0
      ∧ Consistent8 s2
      ∧ ∃ s3, itemIAddAcc 6 c8State 0 1 = some s3 ∧ s3.itemAcc 0 = some 1 :=
  claim_C8_item_reattach c8State 0 0 1 0 1 c8State_consistent rfl (by decide) rfl (by decide)

/-! ## Date utilities (`accounting/core/dateutils.py`, used by claim C9)

`datetime.date` is embedded as year/month/day with the Gregorian month
lengths; comparison is lexicographic.  `startofmonth`/`endofmonth` embed the
calendar iteration of the source (first/last date of the month);
`date + timedelta(days=32)` is 32 applications of day succession. -/

structure PDate where
  y : Nat
  m : Nat
  d : Nat
deriving DecidableEq, Repr

def isLeap (y : Nat) : Bool :=
  (y % 4 == 0 && y % 100 != 0) || y % 400 == 0

def daysInMonth (y m : Nat) : Nat :=
  if m = 2 then (if isLeap y then 29 else 28)
  else if m = 4 ∨ m = 6 ∨ m = 9 ∨ m = 11 then 30
  else 31

/-- A representable `datetime.date`. -/
def ValidPDate (dt : PDate) : Prop :=
  1 ≤ dt.m ∧ dt.m ≤ 12 ∧ 1 ≤ dt.d ∧ dt.d ≤ daysInMonth dt.y dt.m

instance (dt : PDate) : Decidable (ValidPDate dt) := by
  unfold ValidPDate
  infer_instance

/-- `date.__lt__`: lexicographic on (year, month, day). -/
def PDate.lt (a b : PDate) : Prop :=
  a.y < b.y ∨ (a.y = b.y ∧ (a.m < b.m ∨ (a.m = b.m ∧ a.d < b.d)))

instance (a b : PDate) : Decidable (PDate.lt a b) := by
  unfold PDate.lt
  infer_instance

/-- `date.__le__`. -/
def PDate.le (a b : PDate) : Prop :=
  PDate.lt a b ∨ a = b

instance (a b : PDate) : Decidable (PDate.le a b) := by
  unfold PDate.le
  infer_instance

/-- The day after `dt` (`date + timedelta(days=1)`). -/
def succDay (dt : PDate) : PDate :=
  if dt.d < daysInMonth dt.y dt.m then ⟨dt.y, dt.m, dt.d + 1⟩
  else if dt.m < 12 then ⟨dt.y, dt.m + 1, 1⟩
  else ⟨dt.y + 1, 1, 1⟩

/-- `date + timedelta(days=n)`. -/
def addDays (dt : PDate) : Nat → PDate
  | 0 => dt
  | n + 1 => succDay (addDays dt n)

/-- `startofmonth`: the first date of `dt`'s month (the source breaks the
calendar iteration at the first date inside the month). -/
def startofmonth (dt : PDate) : PDate := ⟨dt.y, dt.m, 1⟩

/-- `endofmonth`: the last date of `dt`'s month. -/
def endofmonth (dt : PDate) : PDate := ⟨dt.y, dt.m, daysInMonth dt.y dt.m⟩

/-- The monthly stepper of `getIntervalSteps`:
`(d + datetime.timedelta(days=32)).replace(day=1)`. -/
def incMonthly (dt : PDate) : PDate :=
  let d2 := addDays dt 32
  ⟨d2.y, d2.m, 1⟩

/-- The `while d < tillDate: yield d; d = inc(d)` generator loop, with fuel. -/
def monthlyStepsAux : Nat → PDate → PDate → List PDate
  | 0, _, _ => []
  | fuel + 1, dt, till =>
      if PDate.lt dt till then dt :: monthlyStepsAux fuel (incMonthly dt) till else []

/-- `getIntervalSteps(fromDate, tillDate, INTERVAL_MONTHLY)`: normalize the
range to `(startofmonth(fromDate), endofmonth(tillDate))` and iterate.  The
fuel bound dominates the month index of the till date, which the stepper
increases by one each round. -/
def getIntervalStepsMonthly (fromD tillD : PDate) : List PDate :=
  let f := startofmonth fromD
  let t := endofmonth tillD
  monthlyStepsAux (12 * t.y + t.m + 2) f t

/-- The year/month after a given month (what the monthly stepper lands on). -/
def nextYM (y m : Nat) : Nat × Nat :=
  if m = 12 then (y + 1, 1) else (y, m + 1)

theorem daysInMonth_bounds (y m : Nat) :
    28 ≤ daysInMonth y m ∧ daysInMonth y m ≤ 31 := by
  unfold daysInMonth
  split_ifs <;> omega

theorem addDays_add (dt : PDate) (a b : Nat) :
    addDays dt (a + b) = addDays (addDays dt a) b := by
  induction b with
  | zero => rfl
  | succ n ih =>
      rw [show a + (n + 1) = (a + n) + 1 from rfl, addDays, ih, addDays]

theorem addDays_within (y m d k : Nat) (h : d + k ≤ daysInMonth y m) :
    addDays ⟨y, m, d⟩ k = ⟨y, m, d + k⟩ := by
  induction k with
  | zero => rfl
  | succ n ih =>
      rw [addDays, ih (by omega)]
      rw [succDay]
      simp only [if_pos (show d + n < daysInMonth y m from by omega)]
      have hadd : d + n + 1 = d + (n + 1) := by omega
      rw [hadd]

theorem incMonthly_first (y m : Nat) (h1 : 1 ≤ m) (h2 : m ≤ 12) :
    incMonthly ⟨y, m, 1⟩ = ⟨(nextYM y m).1, (nextYM y m).2, 1⟩ := by
  have hb := daysInMonth_bounds y m
  have hsplit : (32 : Nat) = (daysInMonth y m - 1) + (33 - daysInMonth y m) := by omega
  have hnb := daysInMonth_bounds (nextYM y m).1 (nextYM y m).2
  have hstep : addDays ⟨y, m, 1⟩ 32
      = ⟨(nextYM y m).1, (nextYM y m).2, 1 + (32 - daysInMonth y m)⟩ := by
    nth_rewrite 1 [hsplit]
    rw [addDays_add]
    rw [addDays_within y m 1 (daysInMonth y m - 1) (by omega)]
    rw [show (33 - daysInMonth y m) = (32 - daysInMonth y m) + 1 from by omega]
    rw [show (32 - daysInMonth y m) + 1 = 1 + (32 - daysInMonth y m) from by omega]
    rw [addDays_add]
    rw [show addDays ⟨y, m, 1 + (daysInMonth y m - 1)⟩ 1
        = succDay ⟨y, m, 1 + (daysInMonth y m - 1)⟩ from rfl]
    rw [succDay]
    simp only [if_neg (show ¬ (1 + (daysInMonth y m - 1) < daysInMonth y m) from by omega)]
    by_cases hm : m = 12
    · simp only [if_neg (show ¬ m < 12 from by omega)]
      rw [show nextYM y m = (y + 1, 1) from by rw [nextYM, if_pos hm]]
      exact addDays_within (y + 1) 1 1 (32 - daysInMonth y m)
        (by have := daysInMonth_bounds (y + 1) 1; omega)
    · simp only [if_pos (show m < 12 from by omega)]
      rw [show nextYM y m = (y, m + 1) from by rw [nextYM, if_neg hm]]
      exact addDays_within y (m + 1) 1 (32 - daysInMonth y m)
        (by have := daysInMonth_bounds y (m + 1); omega)
  rw [incMonthly, hstep]

/-- With the till date at the end of the month right after the (first-of-)
month start, the stepper yields exactly the two month starts. -/
theorem monthlySteps_two (fy fm ty tm : Nat) (hm1 : 1 ≤ fm) (hm2 : fm ≤ 12)
    (hnext : nextYM fy fm = (ty, tm)) (n : Nat) :
    monthlyStepsAux (n + 3) ⟨fy, fm, 1⟩ ⟨ty, tm, daysInMonth ty tm⟩
      = [⟨fy, fm, 1⟩, ⟨ty, tm, 1⟩] := by
  have hb := daysInMonth_bounds ty tm
  have hcase : (fm = 12 ∧ ty = fy + 1 ∧ tm = 1) ∨ (fm < 12 ∧ ty = fy ∧ tm = fm + 1) := by
    by_cases hm : fm = 12
    · rw [nextYM, if_pos hm] at hnext
      exact Or.inl ⟨hm, (Prod.mk.injEq _ _ _ _ ▸ hnext).1.symm,
        (Prod.mk.injEq _ _ _ _ ▸ hnext).2.symm⟩
    · rw [nextYM, if_neg hm] at hnext
      exact Or.inr ⟨by omega, (Prod.mk.injEq _ _ _ _ ▸ hnext).1.symm,
        (Prod.mk.injEq _ _ _ _ ▸ hnext).2.symm⟩
  have hlt1 : PDate.lt ⟨fy, fm, 1⟩ ⟨ty, tm, daysInMonth ty tm⟩ := by
    rw [PDate.lt]
    rcases hcase with ⟨_, h1, _⟩ | ⟨h0, h1, h2⟩ <;> simp <;> omega
  have hinc1 : incMonthly ⟨fy, fm, 1⟩ = ⟨ty, tm, 1⟩ := by
    rw [incMonthly_first fy fm hm1 hm2, hnext]
  have htm1 : 1 ≤ tm ∧ tm ≤ 12 := by
    rcases hcase with ⟨_, _, h2⟩ | ⟨h0, _, h2⟩ <;> omega
  have hlt2 : PDate.lt ⟨ty, tm, 1⟩ ⟨ty, tm, daysInMonth ty tm⟩ := by
    rw [PDate.lt]
    simp
    omega
  have hinc2 : incMonthly ⟨ty, tm, 1⟩
      = ⟨(nextYM ty tm).1, (nextYM ty tm).2, 1⟩ :=
    incMonthly_first ty tm htm1.1 htm1.2
  have hlt3 : ¬ PDate.lt ⟨(nextYM ty tm).1, (nextYM ty tm).2, 1⟩
      ⟨ty, tm, daysInMonth ty tm⟩ := by
    rw [PDate.lt, nextYM]
    by_cases hm : tm = 12 <;> simp [hm]
  have h3 : n + 3 = (n + 2) + 1 := rfl
  rw [h3, monthlyStepsAux, if_pos hlt1, hinc1]
  have h2 : n + 2 = (n + 1) + 1 := rfl
  rw [h2, monthlyStepsAux, if_pos hlt2, hinc2]
  rw [monthlyStepsAux, if_neg hlt3]

/-! ## Ledger entities and the report item filter (claim C9)

Accounts are embedded as a tree of ids (object identity); an `Item` stores
its id, quantized decimal value (as `Int`, see the header) and the owning
account's id; a `Transaction` stores id, date and its ordered items.
Filters evaluate over `PEnt`, the Item/Transaction sum: an item entity
carries its transaction's date (the source reads `obj.transaction.date`). -/

inductive PAcc where
  | node (aid : Nat) (children : List PAcc)

def PAcc.aid : PAcc → Nat
  | .node i _ => i

mutual

/-- `AccountTreeItem.hasChildAccount`: direct membership in the child list,
else recursion into the children. -/
def hasChildAcc : PAcc → Nat → Bool
  | .node _ cs, i => anyDirectChild cs i || anyDeepChild cs i

def anyDirectChild : List PAcc → Nat → Bool
  | [], _ => false
  | c :: rest, i => (c.aid == i) || anyDirectChild rest i

def anyDeepChild : List PAcc → Nat → Bool
  | [], _ => false
  | c :: rest, i => hasChildAcc c i || anyDeepChild rest i

end

/-- `AccountTreeItem.isSelfOrHasChildAccount`, on an item's (possibly
absent) account reference: `None` is neither `self` nor any child. -/
def isSelfOrHasChild (a : PAcc) (x : Option Nat) : Bool :=
  match x with
  | none => false
  | some i => (a.aid == i) || hasChildAcc a i

structure PItem where
  iid : Nat
  value : Int
  account : Option Nat
deriving DecidableEq, Repr

structure PTrn where
  tid : Nat
  tdate : PDate
  items : List PItem
deriving DecidableEq, Repr

/-- An entity a filter can evaluate on: a transaction, or an item together
with its transaction's date. -/
inductive PEnt where
  | trn (t : PTrn)
  | item (date : PDate) (i : PItem)

/-- `FilterGreaterOrEqualDate._accepted`. -/
def filterGEAccepted (fromD : PDate) : PEnt → Bool
  | .item dt _ => decide (PDate.le fromD dt)
  | .trn t => decide (PDate.le fromD t.tdate)

/-- `FilterLessOrEqualDate._accepted`. -/
def filterLEAccepted (tillD : PDate) : PEnt → Bool
  | .item dt _ => decide (PDate.le dt tillD)
  | .trn t => decide (PDate.le t.tdate tillD)

/-- The item side of `FilterAccountsAndChildren._accepted`: some configured
account is the item's account or one of its ancestors-in-selection. -/
def accChildrenAcceptedItem (accs : List PAcc) (it : PItem) : Bool :=
  accs.any (fun a => isSelfOrHasChild a it.account)

/-- `FilterAccountsAndChildren._accepted`; on a transaction it is
`hasItems(self)`: some item of the transaction is accepted by this very
filter. -/
def filterAccChildrenAccepted (accs : List PAcc) : PEnt → Bool
  | .item _ it => accChildrenAcceptedItem accs it
  | .trn t => t.items.any (fun it => accChildrenAcceptedItem accs it)

/-- `FilterNotAccountsAndChildren._accepted`; on a transaction it is
`not hasItems(self)` with `self` the not-filter itself. -/
def filterNotAccChildrenAccepted (accs : List PAcc) : PEnt → Bool
  | .item _ it => !(accChildrenAcceptedItem accs it)
  | .trn t => !(t.items.any (fun it => !(accChildrenAcceptedItem accs it)))

/-- A `Report`: database, selected accounts, date range. -/
structure PRep where
  db : List PTrn
  accounts : List PAcc
  fromD : PDate
  tillD : PDate

/-- The filter built by `Report.items`:
`accFilter & (fromFilter & tillFilter)`. -/
def reportFilter (r : PRep) : Filter PEnt :=
  Filter.andF (.leaf (filterAccChildrenAccepted r.accounts))
    (Filter.andF (.leaf (filterGEAccepted r.fromD)) (.leaf (filterLEAccepted r.tillD)))

/-- `Database.filterTransactions` (via `itertools.filterfalse` on
`filter_.rejected`). -/
def dbFilterTransactions (db : List PTrn) (f : Filter PEnt) : List PTrn :=
  db.filter (fun t => !(Filter.rejected f (.trn t)))

/-- `Transaction.filterItems`, tagging each surviving item with the
transaction's date (the item's `date` property). -/
def trnFilterItemsDated (t : PTrn) (f : Filter PEnt) : List (PDate × PItem) :=
  (t.items.filter (fun it => !(Filter.rejected f (.item t.tdate it)))).map
    (fun it => (t.tdate, it))

/-- `Database.filterItems`: chain the per-transaction item iterators of the
transactions accepted by the same filter. -/
def dbFilterItems (db : List PTrn) (f : Filter PEnt) : List (PDate × PItem) :=
  ((dbFilterTransactions db f).map (fun t => trnFilterItemsDated t f)).flatten

/-- `Report.items` (the memoized list, computed once per range). -/
def reportItems (r : PRep) : List (PDate × PItem) :=
  dbFilterItems r.db (reportFilter r)

theorem reportFilter_rejected (r : PRep) (e : PEnt) :
    Filter.rejected (reportFilter r) e
      = !(filterAccChildrenAccepted r.accounts e
          && (filterGEAccepted r.fromD e && filterLEAccepted r.tillD e)) := by
  rw [reportFilter, Filter.rejected_eq_not_accepted, Filter.accepted_andF,
    Filter.accepted_andF]
  rfl

/-- Membership in `Report.items`: exactly the items of database
transactions that lie under a selected account and whose transaction date is
inside the report range. -/
theorem mem_reportItems (r : PRep) (p : PDate × PItem) :
    p ∈ reportItems r
      ↔ ∃ t ∈ r.db, p.1 = t.tdate ∧ p.2 ∈ t.items
          ∧ accChildrenAcceptedItem r.accounts p.2 = true
          ∧ PDate.le r.fromD t.tdate ∧ PDate.le t.tdate r.tillD := by
  rw [reportItems, dbFilterItems, List.mem_flatten]
  constructor
  · rintro ⟨l, hl, hpl⟩
    rw [List.mem_map] at hl
    obtain ⟨t, ht, rfl⟩ := hl
    rw [dbFilterTransactions, List.mem_filter] at ht
    rw [trnFilterItemsDated, List.mem_map] at hpl
    obtain ⟨it, hit, rfl⟩ := hpl
    rw [List.mem_filter] at hit
    have hia := hit.2
    rw [reportFilter_rejected] at hia
    simp only [filterAccChildrenAccepted, filterGEAccepted, filterLEAccepted,
      Bool.not_not, Bool.and_eq_true, decide_eq_true_eq] at hia
    exact ⟨t, ht.1, rfl, hit.1, hia.1, hia.2.1, hia.2.2⟩
  · rintro ⟨t, htdb, hdate, hitem, hacc, hge, hle⟩
    refine ⟨trnFilterItemsDated t (reportFilter r), ?_, ?_⟩
    · rw [List.mem_map]
      refine ⟨t, ?_, rfl⟩
      rw [dbFilterTransactions, List.mem_filter]
      refine ⟨htdb, ?_⟩
      rw [reportFilter_rejected]
      simp only [filterAccChildrenAccepted, filterGEAccepted, filterLEAccepted,
        Bool.not_not, Bool.and_eq_true, decide_eq_true_eq, List.any_eq_true]
      exact ⟨⟨p.2, hitem, hacc⟩, hge, hle⟩
    · rw [trnFilterItemsDated, List.mem_map]
      refine ⟨p.2, ?_, ?_⟩
      · rw [List.mem_filter]
        refine ⟨hitem, ?_⟩
        rw [reportFilter_rejected]
        simp only [filterAccChildrenAccepted, filterGEAccepted, filterLEAccepted,
          Bool.not_not, Bool.and_eq_true, decide_eq_true_eq]
        exact ⟨hacc, hge, hle⟩
      · rw [← hdate]

/-! ## Date-range grouping and `datasetMonthly` (`accounting/report.py`, claim C9) -/

/-- `DateRangeKey` for the monthly interval: the `(startofmonth, endofmonth)`
normalized range; equality compares both dates, ordering compares the from
dates. -/
structure DRKey where
  fromD : PDate
  tillD : PDate
deriving DecidableEq, Repr

/-- `DateRangeKey(d, d, INTERVAL_MONTHLY)`. -/
def mkMonthKey (dt : PDate) : DRKey := ⟨startofmonth dt, endofmonth dt⟩

/-- Stable ascending insertion by `DateRangeKey.__lt__` (Python `list.sort`
keeps the original order of equal keys). -/
def insertKey (k : DRKey) : List DRKey → List DRKey
  | [] => [k]
  | k2 :: ks => if PDate.lt k2.fromD k.fromD then k2 :: insertKey k ks else k :: k2 :: ks

/-- `groups.sort()` of `ItemGroupingByDateRange.groups`. -/
def sortKeys (l : List DRKey) : List DRKey := l.foldr insertKey []

/-- An `ItemGroupingByDateRange`: the string-keyed dict embedded as an
assoc list in insertion order, plus the flat `_items` list. -/
structure Grouping where
  groups : List (DRKey × List (PDate × PItem))
  gitems : List (PDate × PItem)

/-- The constructor pre-seeds one empty bucket per monthly interval step. -/
def groupingInit (fromD tillD : PDate) : Grouping :=
  ⟨(getIntervalStepsMonthly fromD tillD).map (fun i => (mkMonthKey i, [])), []⟩

/-- `ItemGrouping.__iadd__` for an `Item` (identity embedded as the item
id): skip when present, otherwise bucket under `_getGroupKey(item)` —
creating the key's bucket when missing — and record the item. -/
def groupingAddItem (g : Grouping) (p : PDate × PItem) : Grouping :=
  if g.gitems.any (fun q => q.2.iid == p.2.iid) then g
  else
    let key := mkMonthKey p.1
    let groups2 :=
      if g.groups.any (fun kv => kv.1 == key) then
        g.groups.map (fun kv => if kv.1 == key then (kv.1, kv.2 ++ [p]) else kv)
      else g.groups ++ [(key, [p])]
    ⟨groups2, g.gitems ++ [p]⟩

/-- `ItemGrouping.__iadd__` for a `Report`: add every report item. -/
def groupingAddReport (g : Grouping) (r : PRep) : Grouping :=
  (reportItems r).foldl groupingAddItem g

/-- `ItemGroupingByDateRange.groups`: the dict keys, sorted. -/
def groupingGroups (g : Grouping) : List DRKey := sortKeys (g.groups.map Prod.fst)

/-- `ItemGrouping.groupItems(key, filter_)`; the key always exists at the
call sites inside the dataset builders (they iterate `groups()`), so the
`KeyError` case is unreachable there and embedded as `[]`. -/
def groupItems (g : Grouping) (key : DRKey) (f : Filter PEnt) : List (PDate × PItem) :=
  match g.groups.find? (fun kv => kv.1 == key) with
  | some kv => kv.2.filter (fun p => !(Filter.rejected f (.item p.1 p.2)))
  | none => []

/-- Stable ascending insertion for `items.sort(key=lambda x: x.date)`. -/
def insertPairByDate (p : PDate × PItem) :
    List (PDate × PItem) → List (PDate × PItem)
  | [] => [p]
  | q :: qs => if PDate.lt q.1 p.1 then q :: insertPairByDate p qs else p :: q :: qs

def sortPairsByDate (l : List (PDate × PItem)) : List (PDate × PItem) :=
  l.foldr insertPairByDate []

/-- A `ReportDatasetValue` as built by `datasetMonthly`: the label
(`acc.fullname`, embedded as the account id), the summed amount, and the
date-sorted contributing items. -/
structure DSValue where
  albl : Nat
  amount : Int
  vitems : List (PDate × PItem)
deriving DecidableEq, Repr

/-- `Report.datasetMonthly` (the dataset itself, fresh — the broken-in-C4
cache wrapper aside): group the report items by month over the report
range, and per sorted group key emit one group holding, for each selected
account in order, the value summing the bucket filtered by
`FilterAccountsAndChildren(acc) & FilterNotAccountsAndChildren(*(selected
strict descendants of acc))`. -/
def datasetMonthly (r : PRep) : List (DRKey × List DSValue) :=
  let grp := groupingAddReport (groupingInit r.fromD r.tillD) r
  (groupingGroups grp).map (fun label =>
    (label, r.accounts.map (fun acc =>
      let inclF : Filter PEnt := .leaf (filterAccChildrenAccepted [acc])
      let exclF : Filter PEnt := .leaf (filterNotAccChildrenAccepted
        (r.accounts.filter (fun a2 => hasChildAcc acc a2.aid)))
      let items := groupItems grp label (Filter.andF inclF exclF)
      ⟨acc.aid, (items.map (fun p => p.2.value)).sum, sortPairsByDate items⟩)))

/-- Same calendar month. -/
def sameMonth (a b : PDate) : Prop := a.y = b.y ∧ a.m = b.m

instance (a b : PDate) : Decidable (sameMonth a b) := by
  unfold sameMonth
  infer_instance

theorem mkMonthKey_eq_iff (a b : PDate) :
    mkMonthKey a = mkMonthKey b ↔ sameMonth a b := by
  rw [mkMonthKey, mkMonthKey, sameMonth, startofmonth, startofmonth,
    endofmonth, endofmonth, DRKey.mk.injEq, PDate.mk.injEq, PDate.mk.injEq]
  constructor
  · intro h
    exact ⟨h.1.1, h.1.2.1⟩
  · intro h
    rw [h.1, h.2]
    simp

/-- A transaction date between two dates lying in consecutive months falls
in one of those two months. -/
theorem month_dichotomy (fromD tillD p : PDate)
    (hvf : ValidPDate fromD) (hvt : ValidPDate tillD) (hvp : ValidPDate p)
    (hnext : nextYM fromD.y fromD.m = (tillD.y, tillD.m))
    (h1 : PDate.le fromD p) (h2 : PDate.le p tillD) :
    sameMonth p fromD ∨ sameMonth p tillD := by
  rw [ValidPDate] at hvf hvt hvp
  rw [PDate.le, PDate.lt] at h1 h2
  rw [nextYM] at hnext
  rw [sameMonth, sameMonth]
  have hinj : ∀ a b : PDate, a = b → a.y = b.y ∧ a.m = b.m ∧ a.d = b.d := by
    intro a b h
    rw [h]
    exact ⟨rfl, rfl, rfl⟩
  rcases h1 with h1 | h1
  · rcases h2 with h2 | h2
    · by_cases hm : fromD.m = 12
      · rw [if_pos hm] at hnext
        rw [Prod.mk.injEq] at hnext
        omega
      · rw [if_neg hm] at hnext
        rw [Prod.mk.injEq] at hnext
        omega
    · have h3 := hinj _ _ h2
      omega
  · have h3 := hinj _ _ h1
    omega

/-- The embedded sublist lemma for flattened per-transaction item lists. -/
theorem join_map_sublist {α β : Type} (h g : α → List β)
    (hel : ∀ t, List.Sublist (h t) (g t)) :
    ∀ {l2 l : List α}, List.Sublist l2 l →
      List.Sublist ((l2.map h).flatten) ((l.map g).flatten) := by
  intro l2 l hsub
  induction hsub with
  | slnil => simp
  | cons a hsub ih =>
      rw [List.map_cons, List.flatten_cons]
      exact ih.trans (List.sublist_append_right _ _)
  | cons₂ a hsub ih =>
      rw [List.map_cons, List.flatten_cons, List.map_cons, List.flatten_cons]
      exact List.Sublist.append (hel a) ih

/-- The ids of the report's items, in order, form a sublist of the ids of
all database items, so they inherit duplicate-freeness. -/
theorem reportItems_ids_nodup (r : PRep)
    (hids : ((r.db.map (fun t => t.items.map PItem.iid)).flatten).Nodup) :
    ((reportItems r).map (fun p => p.2.iid)).Nodup := by
  refine List.Nodup.sublist ?_ hids
  rw [reportItems, dbFilterItems, List.map_flatten, List.map_map]
  refine join_map_sublist _ _ ?_ ?_
  · intro t
    show (List.map (fun p : PDate × PItem => p.2.iid) (trnFilterItemsDated t (reportFilter r))).Sublist
      (t.items.map PItem.iid)
    rw [trnFilterItemsDated, List.map_map]
    exact List.Sublist.map _ (List.filter_sublist t.items)
  · rw [dbFilterTransactions]
    exact List.filter_sublist r.db

theorem PDate.lt_asymm2 (a b : PDate) (h : PDate.lt a b) : ¬ PDate.lt b a := by
  rw [PDate.lt] at *
  omega

theorem sortKeys_pair (K1 K2 : DRKey) (h : PDate.lt K1.fromD K2.fromD) :
    sortKeys [K1, K2] = [K1, K2] := by
  rw [sortKeys, List.foldr_cons, List.foldr_cons, List.foldr_nil]
  rw [insertKey, insertKey]
  rw [if_neg (PDate.lt_asymm2 _ _ h)]

/-- Folding items whose month keys all hit the two pre-seeded buckets
distributes them into those buckets in order, duplicates-by-id excluded by
the `_items` guard (vacuously here, the ids being distinct). -/
theorem grouping_fold (K1 K2 : DRKey) (hK : K1 ≠ K2) :
    ∀ (l C : List (PDate × PItem)),
      (∀ p ∈ l, mkMonthKey p.1 = K1 ∨ mkMonthKey p.1 = K2) →
      ((C ++ l).map (fun p => p.2.iid)).Nodup →
      l.foldl groupingAddItem
          ⟨[(K1, C.filter (fun p => mkMonthKey p.1 == K1)),
            (K2, C.filter (fun p => mkMonthKey p.1 == K2))], C⟩
        = ⟨[(K1, (C ++ l).filter (fun p => mkMonthKey p.1 == K1)),
            (K2, (C ++ l).filter (fun p => mkMonthKey p.1 == K2))], C ++ l⟩ := by
  intro l
  induction l with
  | nil =>
      intro C _ _
      simp
  | cons p rest ih =>
      intro C hmem hnodup
      rw [List.foldl_cons]
      have hfresh : ∀ q ∈ C, ¬ (q.2.iid = p.2.iid) := by
        intro q hq heq
        rw [List.map_append, List.nodup_append] at hnodup
        exact hnodup.2.2 (List.mem_map_of_mem _ hq)
          (by
            rw [heq]
            exact List.mem_map_of_mem _ (List.mem_cons_self p rest))
      have hguard : (C.any (fun q => q.2.iid == p.2.iid)) = false := by
        rw [List.any_eq_false]
        intro q hq
        simp only [beq_iff_eq]
        exact hfresh q hq
      have hstep : groupingAddItem
          ⟨[(K1, C.filter (fun p => mkMonthKey p.1 == K1)),
            (K2, C.filter (fun p => mkMonthKey p.1 == K2))], C⟩ p
          = ⟨[(K1, (C ++ [p]).filter (fun p => mkMonthKey p.1 == K1)),
              (K2, (C ++ [p]).filter (fun p => mkMonthKey p.1 == K2))], C ++ [p]⟩ := by
        rcases hmem p (List.mem_cons_self p rest) with hk | hk
        · have hb1 : (mkMonthKey p.1 == K1) = true := by
            rw [beq_iff_eq]
            exact hk
          have hb2 : (mkMonthKey p.1 == K2) = false := by
            rw [beq_eq_false_iff_ne, hk]
            exact hK
          have hb21 : (K2 == K1) = false := by
            rw [beq_eq_false_iff_ne]
            exact Ne.symm hK
          simp only [groupingAddItem, hguard, Bool.false_eq_true, if_false, hk,
            List.any_cons, List.any_nil, beq_self_eq_true, Bool.true_or, Bool.or_false,
            if_true, List.map_cons, List.map_nil, hb21]
          simp [List.filter_append, List.filter_singleton, hb1, hb2]
        · have hb1 : (mkMonthKey p.1 == K1) = false := by
            rw [beq_eq_false_iff_ne, hk]
            exact Ne.symm hK
          have hb2 : (mkMonthKey p.1 == K2) = true := by
            rw [beq_iff_eq]
            exact hk
          have hb12 : (K1 == K2) = false := by
            rw [beq_eq_false_iff_ne]
            exact hK
          simp only [groupingAddItem, hguard, Bool.false_eq_true, if_false, hk,
            List.any_cons, List.any_nil, beq_self_eq_true, Bool.or_true, Bool.false_or,
            Bool.or_false, if_true, List.map_cons, List.map_nil, hb12]
          simp [List.filter_append, List.filter_singleton, hb1, hb2]
      rw [hstep]
      have hres := ih (C ++ [p])
        (fun q hq => hmem q (List.mem_cons_of_mem p hq))
        (by
          rw [List.append_assoc, List.singleton_append]
          exact hnodup)
      rw [List.append_assoc, List.singleton_append] at hres
      exact hres

/-- C9: a `Report` over a range spanning exactly two calendar months with
one selected account (`datetime` dates being valid, database item ids
distinct — Python object identity — and the account not its own
descendant): `datasetMonthly()` returns exactly two groups, keyed by the
two months in date order, each holding exactly one value per selected
account, whose amount is the sum of the values of the report's filtered
items lying in that month under the selected account or its descendants
(months with no items keep their empty group). -/
theorem claim_C9_dataset_monthly_two_months (db : List PTrn) (acc : PAcc)
    (fromD tillD : PDate)
    (hvf : ValidPDate fromD) (hvt : ValidPDate tillD)
    (hnext : nextYM fromD.y fromD.m = (tillD.y, tillD.m))
    (hdb : ∀ t ∈ db, ValidPDate t.tdate)
    (hids : ((db.map (fun t => t.items.map PItem.iid)).flatten).Nodup)
    (hself : hasChildAcc acc acc.aid = false) :
    datasetMonthly ⟨db, [acc], fromD, tillD⟩
      = [(mkMonthKey fromD,
          [⟨acc.aid,
            (((reportItems ⟨db, [acc], fromD, tillD⟩).filter
                (fun p => decide (sameMonth p.1 fromD)
                  && accChildrenAcceptedItem [acc] p.2)).map (fun p => p.2.value)).sum,
            sortPairsByDate ((reportItems ⟨db, [acc], fromD, tillD⟩).filter
              (fun p => decide (sameMonth p.1 fromD)
                && accChildrenAcceptedItem [acc] p.2))⟩]),
         (mkMonthKey tillD,
          [⟨acc.aid,
            (((reportItems ⟨db, [acc], fromD, tillD⟩).filter
                (fun p => decide (sameMonth p.1 tillD)
                  && accChildrenAcceptedItem [acc] p.2)).map (fun p => p.2.value)).sum,
            sortPairsByDate ((reportItems ⟨db, [acc], fromD, tillD⟩).filter
              (fun p => decide (sameMonth p.1 tillD)
                && accChildrenAcceptedItem [acc] p.2))⟩])] := by
  have hfm1 : 1 ≤ fromD.m := hvf.1
  have hfm2 : fromD.m ≤ 12 := hvf.2.1
  have htm1 : 1 ≤ tillD.m := hvt.1
  have hnx := hnext
  rw [nextYM] at hnx
  have hcase : (fromD.m = 12 ∧ tillD.y = fromD.y + 1 ∧ tillD.m = 1)
      ∨ (fromD.m ≠ 12 ∧ tillD.y = fromD.y ∧ tillD.m = fromD.m + 1) := by
    by_cases hm : fromD.m = 12
    · rw [if_pos hm, Prod.mk.injEq] at hnx
      exact Or.inl ⟨hm, hnx.1.symm, hnx.2.symm⟩
    · rw [if_neg hm, Prod.mk.injEq] at hnx
      exact Or.inr ⟨hm, hnx.1.symm, hnx.2.symm⟩
  have hsteps : getIntervalStepsMonthly fromD tillD
      = [⟨fromD.y, fromD.m, 1⟩, ⟨tillD.y, tillD.m, 1⟩] := by
    show monthlyStepsAux (12 * tillD.y + tillD.m + 2) ⟨fromD.y, fromD.m, 1⟩
      ⟨tillD.y, tillD.m, daysInMonth tillD.y tillD.m⟩ = _
    obtain ⟨k, hk⟩ : ∃ k, 12 * tillD.y + tillD.m + 2 = k + 3 :=
      ⟨12 * tillD.y + tillD.m - 1, by omega⟩
    rw [hk]
    exact monthlySteps_two fromD.y fromD.m tillD.y tillD.m hfm1 hfm2 hnext k
  have hK : mkMonthKey fromD ≠ mkMonthKey tillD := by
    rw [Ne, mkMonthKey_eq_iff, sameMonth]
    rcases hcase with ⟨h1, h2, h3⟩ | ⟨h1, h2, h3⟩ <;> omega
  have hlt : PDate.lt (mkMonthKey fromD).fromD (mkMonthKey tillD).fromD := by
    show PDate.lt ⟨fromD.y, fromD.m, 1⟩ ⟨tillD.y, tillD.m, 1⟩
    rw [PDate.lt]
    rcases hcase with ⟨h1, h2, h3⟩ | ⟨h1, h2, h3⟩ <;> simp <;> omega
  have haccmem : ∀ p ∈ reportItems ⟨db, [acc], fromD, tillD⟩,
      accChildrenAcceptedItem [acc] p.2 = true := by
    intro p hp
    rw [mem_reportItems] at hp
    obtain ⟨t, htdb, hdate, hitem, hacc2, hge, hle⟩ := hp
    exact hacc2
  have hmonths : ∀ p ∈ reportItems ⟨db, [acc], fromD, tillD⟩,
      mkMonthKey p.1 = mkMonthKey fromD ∨ mkMonthKey p.1 = mkMonthKey tillD := by
    intro p hp
    rw [mem_reportItems] at hp
    obtain ⟨t, htdb, hdate, hitem, hacc2, hge, hle⟩ := hp
    have hvp : ValidPDate p.1 := by
      rw [hdate]
      exact hdb t htdb
    have hd := month_dichotomy fromD tillD p.1 hvf hvt hvp hnext
      (by rw [hdate]; exact hge) (by rw [hdate]; exact hle)
    rcases hd with hd | hd
    · exact Or.inl ((mkMonthKey_eq_iff _ _).mpr hd)
    · exact Or.inr ((mkMonthKey_eq_iff _ _).mpr hd)
  have hinit : groupingInit fromD tillD
      = ⟨[(mkMonthKey fromD, []), (mkMonthKey tillD, [])], []⟩ := by
    rw [groupingInit, hsteps]
    rfl
  have hgrp : groupingAddReport (groupingInit fromD tillD) ⟨db, [acc], fromD, tillD⟩
      = ⟨[(mkMonthKey fromD,
            (reportItems ⟨db, [acc], fromD, tillD⟩).filter
              (fun p => mkMonthKey p.1 == mkMonthKey fromD)),
          (mkMonthKey tillD,
            (reportItems ⟨db, [acc], fromD, tillD⟩).filter
              (fun p => mkMonthKey p.1 == mkMonthKey tillD))],
         reportItems ⟨db, [acc], fromD, tillD⟩⟩ := by
    rw [groupingAddReport, hinit]
    have hfold := grouping_fold (mkMonthKey fromD) (mkMonthKey tillD) hK
      (reportItems ⟨db, [acc], fromD, tillD⟩) [] hmonths
      (by
        rw [List.nil_append]
        exact reportItems_ids_nodup ⟨db, [acc], fromD, tillD⟩ hids)
    rw [List.nil_append] at hfold
    simpa using hfold
  -- the per-member evaluation of the value filter (the excluded-descendant
  -- list is empty: the only selected account is not its own descendant)
  have hefl : ([acc].filter (fun a2 => hasChildAcc acc a2.aid)) = [] := by
    simp [hself]
  have hpred : ∀ p ∈ reportItems ⟨db, [acc], fromD, tillD⟩,
      (!(Filter.rejected
          (Filter.andF (.leaf (filterAccChildrenAccepted [acc]))
            (.leaf (filterNotAccChildrenAccepted
              ([acc].filter (fun a2 => hasChildAcc acc a2.aid)))))
          (.item p.1 p.2))) = true := by
    intro p hp
    rw [Filter.rejected_eq_not_accepted, Filter.accepted_andF, Bool.not_not]
    show (filterAccChildrenAccepted [acc] (.item p.1 p.2)
        && filterNotAccChildrenAccepted
          ([acc].filter (fun a2 => hasChildAcc acc a2.aid)) (.item p.1 p.2)) = true
    rw [hefl]
    show (accChildrenAcceptedItem [acc] p.2 && !(([] : List PAcc).any
      (fun a => isSelfOrHasChild a p.2.account))) = true
    rw [haccmem p hp]
    rfl
  have hfilters : ∀ d : PDate,
      (reportItems ⟨db, [acc], fromD, tillD⟩).filter
          (fun p => mkMonthKey p.1 == mkMonthKey d)
        = (reportItems ⟨db, [acc], fromD, tillD⟩).filter
          (fun p => decide (sameMonth p.1 d) && accChildrenAcceptedItem [acc] p.2) := by
    intro d
    apply List.filter_congr
    intro p hp
    rw [haccmem p hp, Bool.and_true]
    by_cases hs : sameMonth p.1 d
    · rw [decide_eq_true hs, beq_iff_eq]
      simp [(mkMonthKey_eq_iff p.1 d).mpr hs]
    · rw [decide_eq_false hs]
      rw [beq_eq_false_iff_ne]
      exact fun h => hs ((mkMonthKey_eq_iff _ _).mp h)
  have hbucketmem : ∀ d : PDate, ∀ p ∈ (reportItems ⟨db, [acc], fromD, tillD⟩).filter
      (fun p => mkMonthKey p.1 == mkMonthKey d), p ∈ reportItems ⟨db, [acc], fromD, tillD⟩ := by
    intro d p hp
    exact (List.mem_filter.mp hp).1
  have hKb : (mkMonthKey fromD == mkMonthKey tillD) = false := by
    rw [beq_eq_false_iff_ne]
    exact hK
  have hgi1 : groupItems
      ⟨[(mkMonthKey fromD,
          (reportItems ⟨db, [acc], fromD, tillD⟩).filter
            (fun p => mkMonthKey p.1 == mkMonthKey fromD)),
        (mkMonthKey tillD,
          (reportItems ⟨db, [acc], fromD, tillD⟩).filter
            (fun p => mkMonthKey p.1 == mkMonthKey tillD))],
       reportItems ⟨db, [acc], fromD, tillD⟩⟩
      (mkMonthKey fromD)
      (Filter.andF (.leaf (filterAccChildrenAccepted [acc]))
        (.leaf (filterNotAccChildrenAccepted
          ([acc].filter (fun a2 => hasChildAcc acc a2.aid)))))
      = (reportItems ⟨db, [acc], fromD, tillD⟩).filter
          (fun p => decide (sameMonth p.1 fromD) && accChildrenAcceptedItem [acc] p.2) := by
    rw [← hfilters fromD]
    simp only [groupItems, List.find?, beq_self_eq_true]
    exact List.filter_eq_self.mpr
      (fun p hp => hpred p (List.mem_filter.mp hp).1)
  have hgi2 : groupItems
      ⟨[(mkMonthKey fromD,
          (reportItems ⟨db, [acc], fromD, tillD⟩).filter
            (fun p => mkMonthKey p.1 == mkMonthKey fromD)),
        (mkMonthKey tillD,
          (reportItems ⟨db, [acc], fromD, tillD⟩).filter
            (fun p => mkMonthKey p.1 == mkMonthKey tillD))],
       reportItems ⟨db, [acc], fromD, tillD⟩⟩
      (mkMonthKey tillD)
      (Filter.andF (.leaf (filterAccChildrenAccepted [acc]))
        (.leaf (filterNotAccChildrenAccepted
          ([acc].filter (fun a2 => hasChildAcc acc a2.aid)))))
      = (reportItems ⟨db, [acc], fromD, tillD⟩).filter
          (fun p => decide (sameMonth p.1 tillD) && accChildrenAcceptedItem [acc] p.2) := by
    rw [← hfilters tillD]
    simp only [groupItems, List.find?, beq_self_eq_true, hKb]
    exact List.filter_eq_self.mpr
      (fun p hp => hpred p (List.mem_filter.mp hp).1)
  simp only [datasetMonthly]
  rw [hgrp]
  simp only [groupingGroups, List.map_cons, List.map_nil]
  rw [sortKeys_pair _ _ hlt]
  simp only [List.map_cons, List.map_nil]
  rw [hgi1, hgi2]
/-- Concrete witness data for C9: a two-level account (id 1 with child 2)
and three transactions, one per month of March/April of year 1 plus one
out of range. -/
def c9Acc : PAcc := .node 1 [.node 2 []]

def c9Db : List PTrn :=
  [⟨0, ⟨1, 3, 10⟩, [⟨0, 7, some 1⟩, ⟨1, -7, some 9⟩]⟩,
   ⟨1, ⟨1, 4, 2⟩, [⟨2, 5, some 2⟩]⟩,
   ⟨2, ⟨1, 2, 1⟩, [⟨3, 4, some 1⟩]⟩]

/-- Witness for C9 over the concrete report from 1-03-05 to 1-04-20. -/
theorem claim_C9_dataset_monthly_two_months_witness :
    datasetMonthly ⟨c9Db, [c9Acc], ⟨1, 3, 5⟩, ⟨1, 4, 20⟩⟩
      = [(mkMonthKey ⟨1, 3, 5⟩,
          [⟨c9Acc.aid,
            (((reportItems ⟨c9Db, [c9Acc], ⟨1, 3, 5⟩, ⟨1, 4, 20⟩⟩).filter
                (fun p => decide (sameMonth p.1 ⟨1, 3, 5⟩)
                  && accChildrenAcceptedItem [c9Acc] p.2)).map (fun p => p.2.value)).sum,
            sortPairsByDate ((reportItems ⟨c9Db, [c9Acc], ⟨1, 3, 5⟩, ⟨1, 4, 20⟩⟩).filter
              (fun p => decide (sameMonth p.1 ⟨1, 3, 5⟩)
                && accChildrenAcceptedItem [c9Acc] p.2))⟩]),
         (mkMonthKey ⟨1, 4, 20⟩,
          [⟨c9Acc.aid,
            (((reportItems ⟨c9Db, [c9Acc], ⟨1, 3, 5⟩, ⟨1, 4, 20⟩⟩).filter
                (fun p => decide (sameMonth p.1 ⟨1, 4, 20⟩)
                  && accChildrenAcceptedItem [c9Acc] p.2)).map (fun p => p.2.value)).sum,
            sortPairsByDate ((reportItems ⟨c9Db, [c9Acc], ⟨1, 3, 5⟩, ⟨1, 4, 20⟩⟩).filter
              (fun p => decide (sameMonth p.1 ⟨1, 4, 20⟩)
                && accChildrenAcceptedItem [c9Acc] p.2))⟩])] :=
  claim_C9_dataset_monthly_two_months c9Db c9Acc ⟨1, 3, 5⟩ ⟨1, 4, 20⟩
    (by decide) (by decide) (by decide) (by decide) (by decide) (by decide)

/-! ## `eval_decimal` (`accounting/core/value.py`, claim C1)

The textual arithmetic evaluator rewrites the expression string in place:
resolve the innermost parenthesized sub-expression (recursively, with
unspecified precision), else the leftmost `*`/`/` pair, else the leftmost
`+`/`-` pair, splicing `str(result)` back into the text; when nothing
matches, parse the remaining text as a decimal and quantize.

Python `Decimal` is embedded as coefficient × 10^exponent (`PyDecimal`);
the arithmetic reached here is exact (far below the 28-digit context), and
the ideal exponents are `min` for add/subtract licensing and the sum for
multiply, exactly as `decimal` produces for exact results.  `str(Decimal)`
is embedded for non-positive exponents (the only ones producible by parsed
literals and their sums/products); `Decimal(text)` for the plain literal
fragment of the numeric-string grammar (optional sign, digits, one optional
fractional point) — the strings spliced by the loop stay inside it.

The regular expressions `ARG op ARG` with `ARG = -?\d+([.,]\d*)?` are
matched by a deterministic maximal scanner: greedy matching is exact here
because no backtracking alternative can succeed where the greedy parse
fails (the character following a maximal digit run is never a digit, the
operator characters are not `[.,]`, and a sign not followed by a digit
dooms both alternatives of `-?`).  `re.search` tries start positions left
to right.  `\((?P<arg>.+)\)` takes the first `(` that has a later `)` with
at least one character between, with the greedy `.+` reaching to the last
such `)`.

In Python 3 — the language of this code base (`super()`, PyQt5,
`itertools.filterfalse`) — `operator.div` does not exist, so evaluating any
division raises `AttributeError`; the embedding surfaces that as an error
value. -/

structure PyDecimal where
  coeff : Int
  exp : Int
deriving DecidableEq, Repr

inductive PyErr where
  | attributeError
  | invalidOperation
deriving DecidableEq, Repr

inductive ArithOp where
  | add
  | sub
  | mul
deriving DecidableEq, Repr

/-- `txt.strip().replace(" ", "")` for space-only whitespace. -/
def stripSpaces (s : List Char) : List Char := s.filter (fun c => c ≠ ' ')

/-- `norm`: `n.replace(",", ".")`. -/
def normChars (s : List Char) : List Char :=
  s.map (fun c => if c = ',' then '.' else c)

def digitsVal (ds : List Char) : Nat :=
  ds.foldl (fun acc c => acc * 10 + (c.toNat - '0'.toNat)) 0

/-- `Decimal(text)` on the plain-literal fragment. -/
def pyDecimalOfChars (s : List Char) : Option PyDecimal :=
  let signRest : Bool × List Char :=
    match s with
    | '-' :: r => (true, r)
    | '+' :: r => (false, r)
    | r => (false, r)
  let neg := signRest.1
  let rest := signRest.2
  let ip := rest.takeWhile Char.isDigit
  let rest2 := rest.drop ip.length
  match rest2 with
  | [] =>
      if ip.isEmpty then none
      else some ⟨(if neg then -1 else 1) * (digitsVal ip : Int), 0⟩
  | '.' :: r2 =>
      let fp := r2.takeWhile Char.isDigit
      let rest3 := r2.drop fp.length
      if rest3.isEmpty ∧ ¬(ip.isEmpty ∧ fp.isEmpty) then
        some ⟨(if neg then -1 else 1) * (digitsVal (ip ++ fp) : Int), -(fp.length : Int)⟩
      else none
  | _ => none

/-- Exact `Decimal` addition (ideal exponent: the minimum). -/
def decAdd (a b : PyDecimal) : PyDecimal :=
  let e := min a.exp b.exp
  ⟨a.coeff * (10 : Int) ^ (a.exp - e).toNat + b.coeff * (10 : Int) ^ (b.exp - e).toNat, e⟩

def decSub (a b : PyDecimal) : PyDecimal := decAdd a ⟨-b.coeff, b.exp⟩

def decMul (a b : PyDecimal) : PyDecimal := ⟨a.coeff * b.coeff, a.exp + b.exp⟩

def applyOp : ArithOp → PyDecimal → PyDecimal → PyDecimal
  | .add, a, b => decAdd a b
  | .sub, a, b => decSub a b
  | .mul, a, b => decMul a b

/-- `str(Decimal)`.  Positive exponents (unreachable from parsed literals)
are printed positionally; Python would use scientific notation there. -/
def pyDecimalToChars (d : PyDecimal) : List Char :=
  let sign : List Char := if d.coeff < 0 then ['-'] else []
  let ds := Nat.toDigits 10 d.coeff.natAbs
  if d.exp = 0 then sign ++ ds
  else if d.exp < 0 then
    let k := (-d.exp).toNat
    if ds.length > k then
      sign ++ ds.take (ds.length - k) ++ '.' :: ds.drop (ds.length - k)
    else
      sign ++ '0' :: '.' :: (List.replicate (k - ds.length) '0' ++ ds)
  else
    sign ++ ds ++ List.replicate d.exp.toNat '0'

/-- Rounding division of `n` by `10^k`, half to even on the magnitude
(`ROUND_HALF_EVEN`). -/
def halfEvenDiv10 (n : Int) (k : Nat) : Int :=
  let sign : Int := if n < 0 then -1 else 1
  let a := n.natAbs
  let dn := (10 : Nat) ^ k
  let q := a / dn
  let r := a % dn
  let q2 := if 2 * r > dn then q + 1
    else if 2 * r < dn then q
    else (if q % 2 = 1 then q + 1 else q)
  sign * (q2 : Int)

/-- `d.quantize(PRECISION_SAMPLES[prec])`: rescale to exponent `e`. -/
def pyQuantize (d : PyDecimal) (e : Int) : PyDecimal :=
  if e ≤ d.exp then ⟨d.coeff * (10 : Int) ^ (d.exp - e).toNat, e⟩
  else ⟨halfEvenDiv10 d.coeff (e - d.exp).toNat, e⟩

/-- `evalpair(a, b, op)`: normalize the operands, evaluate, and stringify,
prefixing `+` when the first operand was negative and the result positive. -/
def evalpairChars (a b : List Char) (op : ArithOp) : Except PyErr (List Char) :=
  let a2 := normChars a
  let b2 := normChars b
  match pyDecimalOfChars a2, pyDecimalOfChars b2 with
  | some da, some db =>
      let v := applyOp op da db
      let sign : List Char := if a2.head? = some '-' ∧ 0 < v.coeff then ['+'] else []
      .ok (sign ++ pyDecimalToChars v)
  | _, _ => .error .invalidOperation

/-- The fractional part `([.,]\d*)?` of `ARG`, greedily. -/
def matchFrac (s : List Char) : List Char × List Char :=
  match s with
  | c :: rest =>
      if c = '.' ∨ c = ',' then
        let ds := rest.takeWhile Char.isDigit
        (c :: ds, rest.drop ds.length)
      else ([], s)
  | [] => ([], [])

/-- `\d+([.,]\d*)?` at the current position. -/
def matchArgCore (s : List Char) : Option (List Char × List Char) :=
  let ds := s.takeWhile Char.isDigit
  if ds.isEmpty then none
  else
    let rest := s.drop ds.length
    let fr := matchFrac rest
    some (ds ++ fr.1, fr.2)

/-- `ARG = -?\d+([.,]\d*)?` at the current position. -/
def matchArg : List Char → Option (List Char × List Char)
  | '-' :: rest => (matchArgCore rest).map (fun m => ('-' :: m.1, m.2))
  | s => matchArgCore s

/-- `ARG1 op ARG2` at the current position: `(arg1, arg2, rest)`. -/
def matchOpPair (op : Char) (s : List Char) : Option (List Char × List Char × List Char) :=
  match matchArg s with
  | none => none
  | some (a1, r1) =>
      match r1 with
      | c :: r2 =>
          if c = op then (matchArg r2).map (fun m => (a1, m.1, m.2)) else none
      | [] => none

/-- `re.search` for `ARG1 op ARG2`: the leftmost start position that
matches, returning `(prefix, arg1, arg2, suffix)` — the slices
`txt[:m.start()]` and `txt[m.end():]` around the match. -/
def searchOpPair (op : Char) : List Char → Option (List Char × List Char × List Char × List Char)
  | [] => none
  | c :: rest =>
      match matchOpPair op (c :: rest) with
      | some (a1, a2, r) => some ([], a1, a2, r)
      | none => (searchOpPair op rest).map (fun m => (c :: m.1, m.2.1, m.2.2.1, m.2.2.2))

/-- Split after the LAST `)` of `s` (preferring later closers, as the
greedy `.+` does): `(before, after)`. -/
def lastCloseSplit : List Char → Option (List Char × List Char)
  | [] => none
  | c :: rest =>
      match lastCloseSplit rest with
      | some (a, sfx) => some (c :: a, sfx)
      | none => if c = ')' then some ([], rest) else none

/-- `re.search` for `\((?P<arg>.+)\)`: the leftmost `(` enclosing at least
one character before a later `)`; returns `(prefix, arg, suffix)`. -/
def searchParen : List Char → Option (List Char × List Char × List Char)
  | [] => none
  | c :: rest =>
      if c = '(' then
        match lastCloseSplit rest with
        | some (a, sfx) =>
            if a.isEmpty then
              (searchParen rest).map (fun m => (c :: m.1, m.2.1, m.2.2))
            else some ([], a, sfx)
        | none => (searchParen rest).map (fun m => (c :: m.1, m.2.1, m.2.2))
      else (searchParen rest).map (fun m => (c :: m.1, m.2.1, m.2.2))

/-- The loop exit: `Decimal(norm(txt))`, quantized when
`0 <= prec < len(PRECISION_SAMPLES)`. -/
def evalDecimalFinish (txt : List Char) (prec : Int) : Option (Except PyErr PyDecimal) :=
  match pyDecimalOfChars (normChars txt) with
  | none => some (.error .invalidOperation)
  | some d => some (.ok (if 0 ≤ prec ∧ prec < 5 then pyQuantize d (-prec) else d))

/-- The `while True` rewrite loop of `eval_decimal`, with fuel (each
iteration consumes an operator application or a parenthesis pair):
`none` = fuel exhausted, otherwise the Python outcome.  Division reaches
`operator.div`, which Python 3 removed: `AttributeError`. -/
def evalDecimalAux : Nat → List Char → Int → Option (Except PyErr PyDecimal)
  | 0, _, _ => none
  | fuel + 1, txt0, prec =>
      let txt := stripSpaces txt0
      if txt.isEmpty then some (.ok ⟨0, 0⟩)
      else
        match searchParen txt with
        | some (pre, arg, sfx) =>
            match evalDecimalAux fuel arg (-1) with
            | none => none
            | some (.error e) => some (.error e)
            | some (.ok v) => evalDecimalAux fuel (pre ++ pyDecimalToChars v ++ sfx) prec
        | none =>
            match searchOpPair '*' txt, searchOpPair '/' txt with
            | some m, some d =>
                if m.1.length < d.1.length then
                  match evalpairChars m.2.1 m.2.2.1 .mul with
                  | .ok res => evalDecimalAux fuel (m.1 ++ res ++ m.2.2.2) prec
                  | .error e => some (.error e)
                else if d.1.length < m.1.length then some (.error .attributeError)
                else evalDecimalFinish txt prec
            | some m, none =>
                match evalpairChars m.2.1 m.2.2.1 .mul with
                | .ok res => evalDecimalAux fuel (m.1 ++ res ++ m.2.2.2) prec
                | .error e => some (.error e)
            | none, some _ => some (.error .attributeError)
            | none, none =>
                match searchOpPair '+' txt, searchOpPair '-' txt with
                | some m, some d =>
                    if m.1.length < d.1.length then
                      match evalpairChars m.2.1 m.2.2.1 .add with
                      | .ok res => evalDecimalAux fuel (m.1 ++ res ++ m.2.2.2) prec
                      | .error e => some (.error e)
                    else if d.1.length < m.1.length then
                      match evalpairChars d.2.1 d.2.2.1 .sub with
                      | .ok res => evalDecimalAux fuel (d.1 ++ res ++ d.2.2.2) prec
                      | .error e => some (.error e)
                    else evalDecimalFinish txt prec
                | some m, none =>
                    match evalpairChars m.2.1 m.2.2.1 .add with
                    | .ok res => evalDecimalAux fuel (m.1 ++ res ++ m.2.2.2) prec
                    | .error e => some (.error e)
                | none, some d =>
                    match evalpairChars d.2.1 d.2.2.1 .sub with
                    | .ok res => evalDecimalAux fuel (d.1 ++ res ++ d.2.2.2) prec
                    | .error e => some (.error e)
                | none, none => evalDecimalFinish txt prec

/-- `eval_decimal(txt, prec)` with fuel ample for the expression length. -/
def eval_decimal (txt : List Char) (prec : Int) : Option (Except PyErr PyDecimal) :=
  evalDecimalAux (txt.length + 2) txt prec

/-- C1 (code bug): with the default precision 2, the non-division vectors
evaluate to exactly `12.00` (coefficient 1200, exponent −2) and `5.60`
(560 × 10^−2) — but `eval_decimal("1-3/1.50")` never returns `-1.00`:
the division branch evaluates `operator.div`, which Python 3 (the language
of this code base) does not define, raising `AttributeError`.  The module's
own embedded unit test (`eval_decimal("1 - 3 / 1.50") == Decimal(-1)`)
fails the same way. -/
theorem claim_C1_eval_decimal_vectors_and_div_crash :
    eval_decimal "2*3-3*-2".toList 2 = some (Except.ok ⟨1200, -2⟩)
    ∧ eval_decimal "2*(1.3+1.5)".toList 2 = some (Except.ok ⟨560, -2⟩)
    ∧ eval_decimal "1-3/1.50".toList 2 = some (Except.error PyErr.attributeError) :=
  ⟨rfl, rfl, rfl⟩

end Accounting
